import Mathlib

/-!
Verification of the Bresenham line state machine of the `i2d` library
(`line.hpp`, with the coordinate helpers it uses from `units.hpp` and
`geometry.hpp`).

The data model and every operation below are shallow embeddings of the
C++ source: `coord_t` (integer coordinates with component access by axis
index), `line_state_t` (position, direction, Bresenham error term), the
single-step `next`/`prev`, the O(1) multi-step `next_impl`/`prev_impl`
(C++ truncating integer division is `Int.tdiv`), the flips, the iterator
comparison scalar, the `line_range` traversal, and the independent
callback-based `iterate_line` variant.  Loops are embedded with an
explicit fuel argument; every theorem below supplies enough fuel that
the stopping test of the loop, not fuel exhaustion, ends the run.
-/

namespace i2d

/-- Embedding of `component_index<0>` / `component_index<1>` from `units.hpp`:
the axis tag used for component access. -/
inductive Ax : Type
  | ax0 : Ax
  | ax1 : Ax
deriving DecidableEq

/-- Embedding of `coord_t` from `units.hpp` (32-bit ints modelled as `Int`;
the spec treats overflow as out of contract). -/
structure coord_t where
  x : Int
  y : Int
deriving DecidableEq

/-- Component read, `operator[](component_index<N>)` of `coord_t`. -/
def coord_t.get : coord_t → Ax → Int
  | c, .ax0 => c.x
  | c, .ax1 => c.y

/-- Component write, `operator[](component_index<N>)` of `coord_t` used as
an lvalue. -/
def coord_t.set : coord_t → Ax → Int → coord_t
  | c, .ax0, v => { c with x := v }
  | c, .ax1, v => { c with y := v }

/-- `operator-(coord_t, coord_t)` from `units.hpp`. -/
def coord_sub (a b : coord_t) : coord_t := ⟨a.x - b.x, a.y - b.y⟩

/-- `vec_mul(coord_t, int2d_t)` from `units.hpp`. -/
def vec_mul (crd : coord_t) (v : Int) : coord_t := ⟨crd.x * v, crd.y * v⟩

/-- `impl::sqr` from `geometry.hpp`. -/
def sqr (t : Int) : Int := t * t

/-- `c_dist` (chess/Chebyshev distance) from `geometry.hpp`. -/
def c_dist (c1 c2 : coord_t) : Int := max |c1.x - c2.x| |c1.y - c2.y|

/-- `impl::signum` from `line.hpp`: `(0 < x) - (x < 0)`. -/
def signum (x : Int) : Int := (if (0:Int) < x then 1 else 0) - (if x < 0 then 1 else 0)

/-- `impl::is_steep` from `line.hpp`. -/
def is_steep (dir : coord_t) : Prop := sqr dir.y > sqr dir.x

instance (dir : coord_t) : Decidable (is_steep dir) :=
  inferInstanceAs (Decidable (_ > _))

/-- `impl::coord_abs` from `line.hpp`. -/
def coord_abs (dir : coord_t) : coord_t := ⟨|dir.x|, |dir.y|⟩

/-- Embedding of `line_state_t` from `line.hpp`. -/
structure line_state_t where
  pos : coord_t
  dir : coord_t
  error : Int
deriving DecidableEq

/-- `line_state_t::dir_err`. -/
def line_state_t.dir_err (dir : coord_t) : Int :=
  |if is_steep dir then dir.y else dir.x|

/-- `line_state_t::pos_dir`. -/
def line_state_t.pos_dir (pos dir : coord_t) : line_state_t :=
  ⟨pos, dir, line_state_t.dir_err dir⟩

/-- `line_state_t::from_to`. -/
def line_state_t.from_to (frm tgt : coord_t) : line_state_t :=
  if frm = tgt then line_state_t.pos_dir frm ⟨1, 0⟩
  else line_state_t.pos_dir frm (coord_sub tgt frm)

/-- The lambda body of `line_state_t::next`, with the axis tags chosen by
`impl::steep_swap` passed explicitly. -/
def nextBody (line : line_state_t) (cx cy : Ax) : line_state_t :=
  let d := coord_abs line.dir
  let pos1 := line.pos.set cx (line.pos.get cx + signum (line.dir.get cx))
  let e1 := line.error - d.get cy * 2
  if e1 < 0 then
    { pos := pos1.set cy (pos1.get cy + signum (line.dir.get cy))
      dir := line.dir
      error := e1 + d.get cx * 2 }
  else
    { pos := pos1, dir := line.dir, error := e1 }

/-- `line_state_t::next(line_state_t)` (one Bresenham step). -/
def line_state_t.next (line : line_state_t) : line_state_t :=
  if is_steep line.dir then nextBody line .ax1 .ax0 else nextBody line .ax0 .ax1

/-- The lambda body of `line_state_t::prev`. -/
def prevBody (line : line_state_t) (cx cy : Ax) : line_state_t :=
  let d := coord_abs line.dir
  let pos1 := line.pos.set cx (line.pos.get cx - signum (line.dir.get cx))
  let e1 := line.error + d.get cy * 2
  if e1 > d.get cx * 2 then
    { pos := pos1.set cy (pos1.get cy - signum (line.dir.get cy))
      dir := line.dir
      error := e1 - d.get cx * 2 }
  else
    { pos := pos1, dir := line.dir, error := e1 }

/-- `line_state_t::prev(line_state_t)` (one reverse Bresenham step). -/
def line_state_t.prev (line : line_state_t) : line_state_t :=
  if is_steep line.dir then prevBody line .ax1 .ax0 else prevBody line .ax0 .ax1

/-- The `y_change` quantity computed inside `impl::next_impl`
(after `error` has been updated); C++ `/` on `int` truncates toward zero,
which is `Int.tdiv`. -/
def next_impl_y_change (line : line_state_t) (n : Int) (cx cy : Ax) : Int :=
  let d2 := vec_mul (coord_abs line.dir) 2
  Int.tdiv (d2.get cx - (line.error - d2.get cy * n) - 1) (d2.get cx)

/-- The lambda body of `impl::next_impl`. -/
def next_implBody (line : line_state_t) (n : Int) (cx cy : Ax) : line_state_t :=
  let d2 := vec_mul (coord_abs line.dir) 2
  let pos1 := line.pos.set cx (line.pos.get cx + n * signum (line.dir.get cx))
  let e1 := line.error - d2.get cy * n
  let y_change := next_impl_y_change line n cx cy
  { pos := pos1.set cy (pos1.get cy + y_change * signum (line.dir.get cy))
    dir := line.dir
    error := e1 + y_change * d2.get cx }

/-- `impl::next_impl` (O(1) forward multi-step). -/
def next_impl (line : line_state_t) (n : Int) : line_state_t :=
  if is_steep line.dir then next_implBody line n .ax1 .ax0
  else next_implBody line n .ax0 .ax1

/-- The `y_change` quantity computed inside `impl::prev_impl`. -/
def prev_impl_y_change (line : line_state_t) (n : Int) (cx cy : Ax) : Int :=
  let d2 := vec_mul (coord_abs line.dir) 2
  Int.tdiv ((line.error + d2.get cy * n) - 1) (d2.get cx)

/-- The lambda body of `impl::prev_impl`. -/
def prev_implBody (line : line_state_t) (n : Int) (cx cy : Ax) : line_state_t :=
  let d2 := vec_mul (coord_abs line.dir) 2
  let pos1 := line.pos.set cx (line.pos.get cx - n * signum (line.dir.get cx))
  let e1 := line.error + d2.get cy * n
  let y_change := prev_impl_y_change line n cx cy
  { pos := pos1.set cy (pos1.get cy - y_change * signum (line.dir.get cy))
    dir := line.dir
    error := e1 - y_change * d2.get cx }

/-- `impl::prev_impl` (O(1) backward multi-step). -/
def prev_impl (line : line_state_t) (n : Int) : line_state_t :=
  if is_steep line.dir then prev_implBody line n .ax1 .ax0
  else prev_implBody line n .ax0 .ax1

/-- `line_state_t::next(line_state_t, int2d_t)`. -/
def line_state_t.nextN (line : line_state_t) (n : Int) : line_state_t :=
  if n < 0 then prev_impl line (-n) else next_impl line n

/-- `line_state_t::prev(line_state_t, int2d_t)`. -/
def line_state_t.prevN (line : line_state_t) (n : Int) : line_state_t :=
  if n < 0 then next_impl line (-n) else prev_impl line n

/-- `line_state_t::hflipped`. -/
def line_state_t.hflipped (line : line_state_t) : line_state_t :=
  { line with dir := { line.dir with x := line.dir.x * -1 } }

/-- `line_state_t::vflipped`. -/
def line_state_t.vflipped (line : line_state_t) : line_state_t :=
  { line with dir := { line.dir with y := line.dir.y * -1 } }

/-- `impl::iter_cmp` from `line.hpp`: the projection scalar
`(lhs.pos[cx] - rhs.pos[cx]) * lhs.dir[cx]`, axis chosen by steep-swap on
the calling iterator's state. -/
def iter_cmp (lhs rhs : line_state_t) : Int :=
  if is_steep lhs.dir then (lhs.pos.get .ax1 - rhs.pos.get .ax1) * lhs.dir.get .ax1
  else (lhs.pos.get .ax0 - rhs.pos.get .ax0) * lhs.dir.get .ax0

/-- The loop of `iterate_line`, with explicit fuel.  Each iteration emits
the current position (the callback call in the loop condition), stops when
the target is reached, and otherwise runs the loop body of the source. -/
def iterate_line_go (d s tgt : coord_t) : Nat → coord_t → Int → List coord_t
  | 0, _, _ => []
  | fuel+1, pos, err =>
    pos :: (if pos = tgt then [] else
      let err2 := 2 * err
      let pos1 := if err2 > -d.y then { pos with x := pos.x + s.x } else pos
      let err1 := if err2 > -d.y then err - d.y else err
      let pos2 := if err2 < d.x then { pos1 with y := pos1.y + s.y } else pos1
      let err3 := if err2 < d.x then err1 + d.x else err1
      iterate_line_go d s tgt fuel pos2 err3)

/-- `iterate_line(from, to, it_func)` with the callback collecting the
visited positions into a list. -/
def iterate_line (frm tgt : coord_t) : List coord_t :=
  let dir := coord_sub tgt frm
  let d := coord_abs dir
  let s : coord_t := ⟨signum dir.x, signum dir.y⟩
  iterate_line_go d s tgt ((c_dist frm tgt).toNat + 1) frm (d.x - d.y)

/-- `line_range(from, to).begin()`: the state `from_to(from, to)`. -/
def line_range_begin (frm tgt : coord_t) : line_state_t :=
  line_state_t.from_to frm tgt

/-- `line_range(from, to).end()`: `next(begin, c_dist(from, to) + 1)`. -/
def line_range_end (frm tgt : coord_t) : line_state_t :=
  (line_range_begin frm tgt).nextN (c_dist frm tgt + 1)

/-- Front-to-back traversal of a `line_range`: emit `*it` and `++it`
(single-step `next`) while `it != end`; iterator inequality compares
positions only.  Fuel-embedded loop. -/
def range_go (endPos : coord_t) : Nat → line_state_t → List coord_t
  | 0, _ => []
  | fuel+1, st =>
    if st.pos = endPos then [] else st.pos :: range_go endPos fuel st.next

/-- The ordered position sequence of iterating `line_range(from, to)`
from `begin()` to `end()`. -/
def line_range_list (frm tgt : coord_t) : List coord_t :=
  range_go (line_range_end frm tgt).pos ((c_dist frm tgt).toNat + 2)
    (line_range_begin frm tgt)

/-- `line_range::size()`: `cend() - cbegin()`, which is
`c_dist(*end, *begin)` by `operator-(line_iterator, line_iterator)`. -/
def line_range_size (frm tgt : coord_t) : Int :=
  c_dist (line_range_end frm tgt).pos (line_range_begin frm tgt).pos

/-- `line_range::first()`: `*begin`. -/
def line_range_first (frm tgt : coord_t) : coord_t :=
  (line_range_begin frm tgt).pos

/-- `line_range::last()`: `*(end - 1)`, where `it - 1` is `radvance(1)`,
i.e. `prev(state, 1)`. -/
def line_range_last (frm tgt : coord_t) : coord_t :=
  ((line_range_end frm tgt).prevN 1).pos

/-- The major axis chosen by `steep_swap` (the `cx` tag). -/
def cxOf (dir : coord_t) : Ax := if is_steep dir then .ax1 else .ax0

/-- The minor axis chosen by `steep_swap` (the `cy` tag). -/
def cyOf (dir : coord_t) : Ax := if is_steep dir then .ax0 else .ax1

/-- Reference traversal used in proofs: the single-step walk of the state
machine, emitting each position and stopping (inclusively) at the target
position, with explicit fuel.  It mediates between `iterate_line` and the
`line_range` traversal. -/
def state_run (tgt : coord_t) : Nat → line_state_t → List coord_t
  | 0, _ => []
  | fuel+1, st => st.pos :: (if st.pos = tgt then [] else state_run tgt fuel st.next)

-- Sanity checks against the concrete scenarios of the spec (section 8).
example : line_range_list ⟨0,0⟩ ⟨5,2⟩ =
    [⟨0,0⟩, ⟨1,0⟩, ⟨2,1⟩, ⟨3,1⟩, ⟨4,2⟩, ⟨5,2⟩] := by decide

example : iterate_line ⟨0,0⟩ ⟨5,2⟩ =
    [⟨0,0⟩, ⟨1,0⟩, ⟨2,1⟩, ⟨3,1⟩, ⟨4,2⟩, ⟨5,2⟩] := by decide

example : iterate_line ⟨0,0⟩ ⟨0,5⟩ =
    [⟨0,0⟩, ⟨0,1⟩, ⟨0,2⟩, ⟨0,3⟩, ⟨0,4⟩, ⟨0,5⟩] := by decide

example : line_range_list ⟨0,0⟩ ⟨0,5⟩ =
    [⟨0,0⟩, ⟨0,1⟩, ⟨0,2⟩, ⟨0,3⟩, ⟨0,4⟩, ⟨0,5⟩] := by decide

example : line_range_list ⟨3,4⟩ ⟨3,4⟩ = [⟨3,4⟩] := by decide

example : line_range_size ⟨0,0⟩ ⟨5,2⟩ = 6 := by decide

example : line_range_last ⟨0,0⟩ ⟨5,2⟩ = ⟨5,2⟩ := by decide


/-! ### Basic lemmas about the coordinate embedding -/

theorem coord_t.ext2 {c1 c2 : coord_t} (hx : c1.x = c2.x) (hy : c1.y = c2.y) :
    c1 = c2 := by
  cases c1; cases c2; simp_all

theorem line_state_t.ext3 {s t : line_state_t} (hp : s.pos = t.pos)
    (hd : s.dir = t.dir) (he : s.error = t.error) : s = t := by
  cases s; cases t; simp_all

@[simp] theorem get_set_self (c : coord_t) (i : Ax) (v : Int) :
    (c.set i v).get i = v := by
  cases i <;> rfl

@[simp] theorem get_set_ne (c : coord_t) {i j : Ax} (h : j ≠ i) (v : Int) :
    (c.set i v).get j = c.get j := by
  cases i <;> cases j <;> first | rfl | exact absurd rfl h

theorem coord_ext_axes {i j : Ax} (h : i ≠ j) {c1 c2 : coord_t}
    (h1 : c1.get i = c2.get i) (h2 : c1.get j = c2.get j) : c1 = c2 := by
  cases i <;> cases j <;> first
    | exact absurd rfl h
    | exact coord_t.ext2 h1 h2
    | exact coord_t.ext2 h2 h1

@[simp] theorem coord_abs_get (dir : coord_t) (i : Ax) :
    (coord_abs dir).get i = |dir.get i| := by
  cases i <;> rfl

@[simp] theorem vec_mul_get (c : coord_t) (v : Int) (i : Ax) :
    (vec_mul c v).get i = c.get i * v := by
  cases i <;> rfl

theorem signum_of_pos {x : Int} (h : 0 < x) : signum x = 1 := by
  simp [signum, h, not_lt.mpr h.le]

theorem signum_of_neg {x : Int} (h : x < 0) : signum x = -1 := by
  simp [signum, h, not_lt.mpr h.le]

@[simp] theorem signum_zero : signum 0 = 0 := rfl

theorem signum_mul_self (x : Int) : signum x * x = |x| := by
  rcases lt_trichotomy x 0 with h | h | h
  · rw [signum_of_neg h, abs_of_neg h]; ring
  · simp [h]
  · rw [signum_of_pos h, abs_of_pos h]; ring

theorem signum_mul_abs (x : Int) : signum x * |x| = x := by
  rcases lt_trichotomy x 0 with h | h | h
  · rw [signum_of_neg h, abs_of_neg h]; ring
  · simp [h]
  · rw [signum_of_pos h, abs_of_pos h]; ring

theorem abs_signum_le_one (x : Int) : |signum x| ≤ 1 := by
  rcases lt_trichotomy x 0 with h | h | h
  · rw [signum_of_neg h]; decide
  · simp [h]
  · rw [signum_of_pos h]; decide

theorem abs_signum_of_ne_zero {x : Int} (h : x ≠ 0) : |signum x| = 1 := by
  rcases lt_or_gt_of_ne h with h' | h'
  · rw [signum_of_neg h']; decide
  · rw [signum_of_pos h']; decide

theorem is_steep_iff {dir : coord_t} : is_steep dir ↔ |dir.x| < |dir.y| := by
  unfold is_steep sqr
  rw [gt_iff_lt, ← abs_mul_abs_self dir.x, ← abs_mul_abs_self dir.y]
  exact (mul_self_lt_mul_self_iff (abs_nonneg _) (abs_nonneg _)).symm

/-! ### The axis pair chosen by `impl::steep_swap` -/

theorem cxOf_ne_cyOf (dir : coord_t) : cxOf dir ≠ cyOf dir := by
  unfold cxOf cyOf; split <;> decide

theorem major_eq_max (dir : coord_t) :
    |dir.get (cxOf dir)| = max |dir.x| |dir.y| := by
  unfold cxOf
  split <;> rename_i h
  · rw [max_eq_right (is_steep_iff.mp h).le]; rfl
  · rw [max_eq_left (not_lt.mp (mt is_steep_iff.mpr h))]; rfl

theorem minor_le_major (dir : coord_t) :
    |dir.get (cyOf dir)| ≤ |dir.get (cxOf dir)| := by
  unfold cxOf cyOf
  split <;> rename_i h
  · exact (is_steep_iff.mp h).le
  · exact not_lt.mp (mt is_steep_iff.mpr h)

theorem major_pos {dir : coord_t} (h : dir ≠ (⟨0, 0⟩ : coord_t)) :
    1 ≤ |dir.get (cxOf dir)| := by
  rw [major_eq_max]
  rcases eq_or_ne dir.x 0 with hx | hx
  · rcases eq_or_ne dir.y 0 with hy | hy
    · exact absurd (coord_t.ext2 hx hy) h
    · exact le_trans (Int.one_le_abs hy) (le_max_right _ _)
  · exact le_trans (Int.one_le_abs hx) (le_max_left _ _)

theorem dir_err_eq_major (dir : coord_t) :
    line_state_t.dir_err dir = |dir.get (cxOf dir)| := by
  unfold line_state_t.dir_err cxOf
  split <;> rfl

theorem next_eq_body (l : line_state_t) :
    l.next = nextBody l (cxOf l.dir) (cyOf l.dir) := by
  unfold line_state_t.next cxOf cyOf
  split <;> rfl

theorem prev_eq_body (l : line_state_t) :
    l.prev = prevBody l (cxOf l.dir) (cyOf l.dir) := by
  unfold line_state_t.prev cxOf cyOf
  split <;> rfl

theorem next_impl_eq_body (l : line_state_t) (n : Int) :
    next_impl l n = next_implBody l n (cxOf l.dir) (cyOf l.dir) := by
  unfold next_impl cxOf cyOf
  split <;> rfl

theorem prev_impl_eq_body (l : line_state_t) (n : Int) :
    prev_impl l n = prev_implBody l n (cxOf l.dir) (cyOf l.dir) := by
  unfold prev_impl cxOf cyOf
  split <;> rfl

theorem nextBody_dir (l : line_state_t) (cx cy : Ax) :
    (nextBody l cx cy).dir = l.dir := by
  unfold nextBody; dsimp only; split <;> rfl

theorem prevBody_dir (l : line_state_t) (cx cy : Ax) :
    (prevBody l cx cy).dir = l.dir := by
  unfold prevBody; dsimp only; split <;> rfl

theorem next_dir (l : line_state_t) : l.next.dir = l.dir := by
  rw [next_eq_body]; exact nextBody_dir ..

theorem prev_dir (l : line_state_t) : l.prev.dir = l.dir := by
  rw [prev_eq_body]; exact prevBody_dir ..

theorem next_impl_dir (l : line_state_t) (n : Int) :
    (next_impl l n).dir = l.dir := by
  rw [next_impl_eq_body]; rfl

theorem prev_impl_dir (l : line_state_t) (n : Int) :
    (prev_impl l n).dir = l.dir := by
  rw [prev_impl_eq_body]; rfl

theorem nextN_dir (l : line_state_t) (n : Int) : (l.nextN n).dir = l.dir := by
  unfold line_state_t.nextN
  split
  · exact prev_impl_dir ..
  · exact next_impl_dir ..

theorem prevN_dir (l : line_state_t) (n : Int) : (l.prevN n).dir = l.dir := by
  unfold line_state_t.prevN
  split
  · exact next_impl_dir ..
  · exact prev_impl_dir ..

/-! ### Single-step inverse laws (body level) -/

theorem prevBody_nextBody {cx cy : Ax} (hxy : cx ≠ cy) {s : line_state_t}
    (h0 : 0 < s.error) (h2 : s.error < 2 * |s.dir.get cx|) :
    prevBody (nextBody s cx cy) cx cy = s := by
  have hyx : cy ≠ cx := hxy.symm
  have hb : (0:Int) ≤ |s.dir.get cy| := abs_nonneg _
  simp only [nextBody, prevBody, coord_abs_get]
  split <;> rename_i h1 <;>
    dsimp only <;>
    simp only [get_set_self, get_set_ne _ hyx, get_set_ne _ hxy] <;>
    split <;> rename_i hc2
  · refine line_state_t.ext3 (coord_ext_axes hxy ?_ ?_) rfl ?_ <;>
      simp only [get_set_self, get_set_ne _ hyx, get_set_ne _ hxy] <;> omega
  · exact absurd hc2 (by omega)
  · exact absurd hc2 (by omega)
  · refine line_state_t.ext3 (coord_ext_axes hxy ?_ ?_) rfl ?_ <;>
      simp only [get_set_self, get_set_ne _ hyx, get_set_ne _ hxy] <;> omega

theorem nextBody_prevBody {cx cy : Ax} (hxy : cx ≠ cy) {s : line_state_t}
    (h0 : 0 < s.error) (h2 : s.error < 2 * |s.dir.get cx|) :
    nextBody (prevBody s cx cy) cx cy = s := by
  have hyx : cy ≠ cx := hxy.symm
  have hb : (0:Int) ≤ |s.dir.get cy| := abs_nonneg _
  simp only [nextBody, prevBody, coord_abs_get]
  split <;> rename_i h1 <;>
    dsimp only <;>
    simp only [get_set_self, get_set_ne _ hyx, get_set_ne _ hxy] <;>
    split <;> rename_i hc2
  · refine line_state_t.ext3 (coord_ext_axes hxy ?_ ?_) rfl ?_ <;>
      simp only [get_set_self, get_set_ne _ hyx, get_set_ne _ hxy] <;> omega
  · exact absurd hc2 (by omega)
  · exact absurd hc2 (by omega)
  · refine line_state_t.ext3 (coord_ext_axes hxy ?_ ?_) rfl ?_ <;>
      simp only [get_set_self, get_set_ne _ hyx, get_set_ne _ hxy] <;> omega

theorem prev_next_of_bound {s : line_state_t} (h0 : 0 < s.error)
    (h2 : s.error < 2 * |s.dir.get (cxOf s.dir)|) : s.next.prev = s := by
  have hd : s.next.dir = s.dir := next_dir s
  rw [prev_eq_body, hd, next_eq_body]
  exact prevBody_nextBody (cxOf_ne_cyOf _) h0 h2

theorem next_prev_of_bound {s : line_state_t} (h0 : 0 < s.error)
    (h2 : s.error < 2 * |s.dir.get (cxOf s.dir)|) : s.prev.next = s := by
  have hd : s.prev.dir = s.dir := prev_dir s
  rw [next_eq_body, hd, prev_eq_body]
  exact nextBody_prevBody (cxOf_ne_cyOf _) h0 h2

/-! ### The error-term bound and its preservation -/

theorem nextBody_bound {cx cy : Ax} {s : line_state_t}
    (hb : |s.dir.get cy| ≤ |s.dir.get cx|)
    (h0 : 0 ≤ s.error) (h2 : s.error ≤ 2 * |s.dir.get cx|) :
    0 ≤ (nextBody s cx cy).error ∧
      (nextBody s cx cy).error ≤ 2 * |s.dir.get cx| := by
  have := abs_nonneg (s.dir.get cy)
  simp only [nextBody, coord_abs_get]
  split <;> dsimp only <;> omega

theorem prevBody_bound {cx cy : Ax} {s : line_state_t}
    (hb : |s.dir.get cy| ≤ |s.dir.get cx|)
    (h0 : 0 ≤ s.error) (h2 : s.error ≤ 2 * |s.dir.get cx|) :
    0 ≤ (prevBody s cx cy).error ∧
      (prevBody s cx cy).error ≤ 2 * |s.dir.get cx| := by
  have := abs_nonneg (s.dir.get cy)
  simp only [prevBody, coord_abs_get]
  split <;> dsimp only <;> omega

theorem next_bound {s : line_state_t}
    (h0 : 0 ≤ s.error) (h2 : s.error ≤ 2 * max |s.dir.x| |s.dir.y|) :
    0 ≤ s.next.error ∧ s.next.error ≤ 2 * max |s.dir.x| |s.dir.y| := by
  rw [← major_eq_max] at h2 ⊢
  rw [next_eq_body]
  exact nextBody_bound (minor_le_major _) h0 h2

theorem prev_bound {s : line_state_t}
    (h0 : 0 ≤ s.error) (h2 : s.error ≤ 2 * max |s.dir.x| |s.dir.y|) :
    0 ≤ s.prev.error ∧ s.prev.error ≤ 2 * max |s.dir.x| |s.dir.y| := by
  rw [← major_eq_max] at h2 ⊢
  rw [prev_eq_body]
  exact prevBody_bound (minor_le_major _) h0 h2

theorem factory_bound (pos dir : coord_t) :
    0 ≤ (line_state_t.pos_dir pos dir).error ∧
      (line_state_t.pos_dir pos dir).error ≤ 2 * max |dir.x| |dir.y| := by
  have h : (line_state_t.pos_dir pos dir).error = max |dir.x| |dir.y| := by
    show line_state_t.dir_err dir = _
    rw [dir_err_eq_major, major_eq_max]
  rw [h]
  constructor
  · exact le_max_of_le_left (abs_nonneg _)
  · have : (0:Int) ≤ max |dir.x| |dir.y| := le_max_of_le_left (abs_nonneg _)
    omega

@[simp] theorem set_get_self (c : coord_t) (i : Ax) : c.set i (c.get i) = c := by
  cases i <;> rfl

/-! ### Closed-form characterization of iterated single steps -/

theorem next_iterate_char {s : line_state_t} (hd : s.dir ≠ (⟨0, 0⟩ : coord_t))
    (h0 : 0 ≤ s.error) (h2 : s.error ≤ 2 * |s.dir.get (cxOf s.dir)|) (j : Nat) :
    ∃ m e : Int,
      line_state_t.next^[j] s =
        { pos := (s.pos.set (cxOf s.dir)
              (s.pos.get (cxOf s.dir) + signum (s.dir.get (cxOf s.dir)) * j)).set
            (cyOf s.dir)
            (s.pos.get (cyOf s.dir) + signum (s.dir.get (cyOf s.dir)) * m)
          dir := s.dir
          error := e } ∧
      e = s.error - 2 * |s.dir.get (cyOf s.dir)| * j
            + 2 * |s.dir.get (cxOf s.dir)| * m ∧
      0 ≤ e ∧ e ≤ 2 * |s.dir.get (cxOf s.dir)| ∧
      (e = 2 * |s.dir.get (cxOf s.dir)| → m = 0) ∧ 0 ≤ m ∧ m ≤ j := by
  induction j with
  | zero =>
    refine ⟨0, s.error, ?_, by push_cast; ring, h0, h2, fun _ => rfl, le_refl 0,
      by simp⟩
    simp
  | succ j ih =>
    obtain ⟨m, e, hS, hee, he0, he2, hm0, hmlo, hmhi⟩ := ih
    have hxy : cxOf s.dir ≠ cyOf s.dir := cxOf_ne_cyOf _
    have hyx : cyOf s.dir ≠ cxOf s.dir := hxy.symm
    have hb : |s.dir.get (cyOf s.dir)| ≤ |s.dir.get (cxOf s.dir)| :=
      minor_le_major _
    have ha : 1 ≤ |s.dir.get (cxOf s.dir)| := major_pos hd
    have hbn : (0:Int) ≤ |s.dir.get (cyOf s.dir)| := abs_nonneg _
    have hdir : (line_state_t.next^[j] s).dir = s.dir := by rw [hS]
    rw [Function.iterate_succ_apply', next_eq_body, hdir, hS]
    simp only [nextBody, coord_abs_get]
    by_cases hc : e - |s.dir.get (cyOf s.dir)| * 2 < 0
    · rw [if_pos hc]
      refine ⟨m + 1,
        e - |s.dir.get (cyOf s.dir)| * 2 + |s.dir.get (cxOf s.dir)| * 2,
        ?_, ?_, by omega, by omega, ?_, by omega, by push_cast; omega⟩
      · refine line_state_t.ext3 (coord_ext_axes hxy ?_ ?_) rfl rfl <;>
          simp only [get_set_self, get_set_ne _ hxy, get_set_ne _ hyx] <;>
          push_cast <;> ring
      · rw [hee]; push_cast; ring
      · intro h; exfalso; omega
    · rw [if_neg hc]
      refine ⟨m, e - |s.dir.get (cyOf s.dir)| * 2, ?_, ?_, by omega, by omega,
        ?_, hmlo, by push_cast; omega⟩
      · refine line_state_t.ext3 (coord_ext_axes hxy ?_ ?_) rfl rfl <;>
          simp only [get_set_self, get_set_ne _ hxy, get_set_ne _ hyx] <;>
          push_cast <;> ring
      · rw [hee]; push_cast; ring
      · intro h; apply hm0; omega

theorem prev_iterate_char {s : line_state_t} (hd : s.dir ≠ (⟨0, 0⟩ : coord_t))
    (h0 : 0 ≤ s.error) (h2 : s.error ≤ 2 * |s.dir.get (cxOf s.dir)|) (j : Nat) :
    ∃ m e : Int,
      line_state_t.prev^[j] s =
        { pos := (s.pos.set (cxOf s.dir)
              (s.pos.get (cxOf s.dir) - signum (s.dir.get (cxOf s.dir)) * j)).set
            (cyOf s.dir)
            (s.pos.get (cyOf s.dir) - signum (s.dir.get (cyOf s.dir)) * m)
          dir := s.dir
          error := e } ∧
      e = s.error + 2 * |s.dir.get (cyOf s.dir)| * j
            - 2 * |s.dir.get (cxOf s.dir)| * m ∧
      0 ≤ e ∧ e ≤ 2 * |s.dir.get (cxOf s.dir)| ∧
      (e = 0 → m = 0) ∧ 0 ≤ m ∧ m ≤ j := by
  induction j with
  | zero =>
    refine ⟨0, s.error, ?_, by push_cast; ring, h0, h2, fun _ => rfl, le_refl 0,
      by simp⟩
    simp
  | succ j ih =>
    obtain ⟨m, e, hS, hee, he0, he2, hm0, hmlo, hmhi⟩ := ih
    have hxy : cxOf s.dir ≠ cyOf s.dir := cxOf_ne_cyOf _
    have hyx : cyOf s.dir ≠ cxOf s.dir := hxy.symm
    have hb : |s.dir.get (cyOf s.dir)| ≤ |s.dir.get (cxOf s.dir)| :=
      minor_le_major _
    have ha : 1 ≤ |s.dir.get (cxOf s.dir)| := major_pos hd
    have hbn : (0:Int) ≤ |s.dir.get (cyOf s.dir)| := abs_nonneg _
    have hdir : (line_state_t.prev^[j] s).dir = s.dir := by rw [hS]
    rw [Function.iterate_succ_apply', prev_eq_body, hdir, hS]
    simp only [prevBody, coord_abs_get]
    by_cases hc : e + |s.dir.get (cyOf s.dir)| * 2 > |s.dir.get (cxOf s.dir)| * 2
    · rw [if_pos hc]
      refine ⟨m + 1,
        e + |s.dir.get (cyOf s.dir)| * 2 - |s.dir.get (cxOf s.dir)| * 2,
        ?_, ?_, by omega, by omega, ?_, by omega, by push_cast; omega⟩
      · refine line_state_t.ext3 (coord_ext_axes hxy ?_ ?_) rfl rfl <;>
          simp only [get_set_self, get_set_ne _ hxy, get_set_ne _ hyx] <;>
          push_cast <;> ring
      · rw [hee]; push_cast; ring
      · intro h; exfalso; omega
    · rw [if_neg hc]
      refine ⟨m, e + |s.dir.get (cyOf s.dir)| * 2, ?_, ?_, by omega, by omega,
        ?_, hmlo, by push_cast; omega⟩
      · refine line_state_t.ext3 (coord_ext_axes hxy ?_ ?_) rfl rfl <;>
          simp only [get_set_self, get_set_ne _ hxy, get_set_ne _ hyx] <;>
          push_cast <;> ring
      · rw [hee]; push_cast; ring
      · intro h; apply hm0; omega

/-! ### Correctness of the O(1) multi-step implementations -/

theorem tdiv_mul_add {a m r : Int} (ha : 1 ≤ a) (hm : 0 ≤ m) (hr1 : -1 ≤ r)
    (hr2 : r < 2 * a) (h : r = -1 → m = 0) :
    Int.tdiv (2 * a * m + r) (2 * a) = m := by
  rcases eq_or_lt_of_le hr1 with he | hlt
  · have hm0 : m = 0 := h he.symm
    subst hm0
    rw [← he]
    rw [show (2 * a * 0 + -1 : Int) = -(1) by ring]
    rw [Int.neg_tdiv, Int.tdiv_eq_zero_of_lt (by norm_num) (by omega)]
    ring
  · have hr0 : 0 ≤ r := by omega
    have hnum : 0 ≤ 2 * a * m + r := by
      have := mul_nonneg (by omega : (0:Int) ≤ 2 * a) hm
      omega
    rw [Int.tdiv_eq_ediv hnum (by omega)]
    rw [show 2 * a * m + r = r + 2 * a * m by ring]
    rw [Int.add_mul_ediv_left r m (by omega : (2 * a : Int) ≠ 0)]
    rw [Int.ediv_eq_zero_of_lt hr0 hr2]
    ring

theorem next_impl_eq_iterate {s : line_state_t} (hd : s.dir ≠ (⟨0, 0⟩ : coord_t))
    (h0 : 0 ≤ s.error) (h2 : s.error ≤ 2 * |s.dir.get (cxOf s.dir)|) (n : Nat) :
    next_impl s (n : Int) = line_state_t.next^[n] s := by
  obtain ⟨m, e, hS, hee, he0, he2, hm0, hmlo, hmhi⟩ := next_iterate_char hd h0 h2 n
  have hxy : cxOf s.dir ≠ cyOf s.dir := cxOf_ne_cyOf _
  have hyx : cyOf s.dir ≠ cxOf s.dir := hxy.symm
  have ha : 1 ≤ |s.dir.get (cxOf s.dir)| := major_pos hd
  rw [next_impl_eq_body, hS]
  simp only [next_implBody, next_impl_y_change, vec_mul_get, coord_abs_get]
  have hyc : Int.tdiv
      (|s.dir.get (cxOf s.dir)| * 2 -
          (s.error - |s.dir.get (cyOf s.dir)| * 2 * (n : Int)) - 1)
      (|s.dir.get (cxOf s.dir)| * 2) = m := by
    rw [show |s.dir.get (cxOf s.dir)| * 2 -
          (s.error - |s.dir.get (cyOf s.dir)| * 2 * (n : Int)) - 1
        = 2 * |s.dir.get (cxOf s.dir)| * m +
          (2 * |s.dir.get (cxOf s.dir)| - e - 1) by rw [hee]; ring]
    rw [show |s.dir.get (cxOf s.dir)| * 2 = 2 * |s.dir.get (cxOf s.dir)| by ring]
    exact tdiv_mul_add ha hmlo (by omega) (by omega) (fun hr => hm0 (by omega))
  rw [hyc]
  refine line_state_t.ext3 (coord_ext_axes hxy ?_ ?_) rfl ?_
  · simp only [get_set_self, get_set_ne _ hxy, get_set_ne _ hyx]
    ring
  · simp only [get_set_self, get_set_ne _ hxy, get_set_ne _ hyx]
    ring
  · rw [hee]; ring

theorem prev_impl_eq_iterate {s : line_state_t} (hd : s.dir ≠ (⟨0, 0⟩ : coord_t))
    (h0 : 0 ≤ s.error) (h2 : s.error ≤ 2 * |s.dir.get (cxOf s.dir)|) (n : Nat) :
    prev_impl s (n : Int) = line_state_t.prev^[n] s := by
  obtain ⟨m, e, hS, hee, he0, he2, hm0, hmlo, hmhi⟩ := prev_iterate_char hd h0 h2 n
  have hxy : cxOf s.dir ≠ cyOf s.dir := cxOf_ne_cyOf _
  have hyx : cyOf s.dir ≠ cxOf s.dir := hxy.symm
  have ha : 1 ≤ |s.dir.get (cxOf s.dir)| := major_pos hd
  rw [prev_impl_eq_body, hS]
  simp only [prev_implBody, prev_impl_y_change, vec_mul_get, coord_abs_get]
  have hyc : Int.tdiv
      (s.error + |s.dir.get (cyOf s.dir)| * 2 * (n : Int) - 1)
      (|s.dir.get (cxOf s.dir)| * 2) = m := by
    rw [show s.error + |s.dir.get (cyOf s.dir)| * 2 * (n : Int) - 1
        = 2 * |s.dir.get (cxOf s.dir)| * m + (e - 1) by rw [hee]; ring]
    rw [show |s.dir.get (cxOf s.dir)| * 2 = 2 * |s.dir.get (cxOf s.dir)| by ring]
    exact tdiv_mul_add ha hmlo (by omega) (by omega) (fun hr => hm0 (by omega))
  rw [hyc]
  refine line_state_t.ext3 (coord_ext_axes hxy ?_ ?_) rfl ?_
  · simp only [get_set_self, get_set_ne _ hxy, get_set_ne _ hyx]
    ring
  · simp only [get_set_self, get_set_ne _ hxy, get_set_ne _ hyx]
    ring
  · rw [hee]; ring

theorem tdiv_nonneg_of_neg_one_le {d num : Int} (hd : 2 ≤ d) (hnum : -1 ≤ num) :
    0 ≤ Int.tdiv num d := by
  rcases eq_or_lt_of_le hnum with he | hlt
  · rw [← he, show (-1 : Int) = -(1) by ring, Int.neg_tdiv,
      Int.tdiv_eq_zero_of_lt (by norm_num) (by omega)]
    norm_num
  · exact Int.tdiv_nonneg (by omega) (by omega)

theorem from_to_dir_ne (frm tgt : coord_t) :
    (line_state_t.from_to frm tgt).dir ≠ (⟨0, 0⟩ : coord_t) := by
  unfold line_state_t.from_to line_state_t.pos_dir
  split <;> rename_i h
  · simp
  · intro hc
    have hx := congrArg coord_t.x hc
    have hy := congrArg coord_t.y hc
    simp [coord_sub] at hx hy
    exact h (coord_t.ext2 (by omega) (by omega))

theorem next_iterate_dir (s : line_state_t) (j : Nat) :
    (line_state_t.next^[j] s).dir = s.dir := by
  induction j with
  | zero => rfl
  | succ j ih => rw [Function.iterate_succ_apply', next_dir, ih]

theorem iter_cmp_eq (lhs rhs : line_state_t) :
    iter_cmp lhs rhs =
      (lhs.pos.get (cxOf lhs.dir) - rhs.pos.get (cxOf lhs.dir)) *
        lhs.dir.get (cxOf lhs.dir) := by
  unfold iter_cmp cxOf
  split <;> rfl

/-! ### The claims -/

/-- Claim C1 as stated is false on the code: at the state with
`pos = (0,0)`, `dir = (2,1)`, `error = 0` (which has a valid direction,
and is even reachable from `from_to((0,0),(2,1))` in one step up to
translation), `prev(next(s))` lands on `(0,1)` with error `4`. -/
theorem claim_C1_cex :
    ¬ (∀ s : line_state_t, s.dir ≠ (⟨0, 0⟩ : coord_t) →
        s.next.prev = s ∧ s.prev.next = s) := by
  intro h
  have := (h ⟨⟨0, 0⟩, ⟨2, 1⟩, 0⟩ (by decide)).1
  exact absurd this (by decide)

/-- Claim C1, amended: for every state whose error term lies strictly
between `0` and `2 * max(|dir.x|, |dir.y|)` (every factory-fresh state
does), `prev(next(s)) = s` and `next(prev(s)) = s` with full-state
equality. -/
theorem claim_C1 (s : line_state_t) (hd : s.dir ≠ (⟨0, 0⟩ : coord_t))
    (h0 : 0 < s.error) (h2 : s.error < 2 * max |s.dir.x| |s.dir.y|) :
    s.next.prev = s ∧ s.prev.next = s := by
  rw [← major_eq_max] at h2
  exact ⟨prev_next_of_bound h0 h2, next_prev_of_bound h0 h2⟩

/-- Witness for the amended claim C1 at a concrete state. -/
theorem claim_C1_witness :
    (⟨⟨0, 0⟩, ⟨2, 1⟩, 2⟩ : line_state_t).next.prev = ⟨⟨0, 0⟩, ⟨2, 1⟩, 2⟩ ∧
    (⟨⟨0, 0⟩, ⟨2, 1⟩, 2⟩ : line_state_t).prev.next = ⟨⟨0, 0⟩, ⟨2, 1⟩, 2⟩ :=
  claim_C1 ⟨⟨0, 0⟩, ⟨2, 1⟩, 2⟩ (by decide) (by decide) (by decide)

/-- Claim C2 as stated is false on the code: with `error = 100` and
`dir = (2,1)` (a valid direction), `next(s, 0)` is not `s`: the truncating
division drives `y_change` to `-24` and moves the position. -/
theorem claim_C2_cex :
    ¬ (∀ (s : line_state_t) (N : Nat), s.dir ≠ (⟨0, 0⟩ : coord_t) → N ≤ 1000 →
        s.nextN (N : Int) = line_state_t.next^[N] s ∧
        s.prevN (N : Int) = line_state_t.prev^[N] s) := by
  intro h
  have := (h ⟨⟨0, 0⟩, ⟨2, 1⟩, 100⟩ 0 (by decide) (by decide)).1
  exact absurd this (by decide)

/-- Claim C2, amended: under the error-term invariant
`0 ≤ error ≤ 2 * max(|dir.x|, |dir.y|)` (which holds for every reachable
state), the O(1) multi-step `next(s, N)` equals `N` iterated single steps,
and likewise for `prev`, for every `0 ≤ N ≤ 1000`. -/
theorem claim_C2 (s : line_state_t) (N : Nat) (hd : s.dir ≠ (⟨0, 0⟩ : coord_t))
    (hN : N ≤ 1000) (h0 : 0 ≤ s.error)
    (h2 : s.error ≤ 2 * max |s.dir.x| |s.dir.y|) :
    s.nextN (N : Int) = line_state_t.next^[N] s ∧
    s.prevN (N : Int) = line_state_t.prev^[N] s := by
  rw [← major_eq_max] at h2
  have hnn : ¬ ((N : Int) < 0) := by omega
  constructor
  · have h : s.nextN (N : Int) = next_impl s (N : Int) := by
      unfold line_state_t.nextN
      rw [if_neg hnn]
    rw [h]
    exact next_impl_eq_iterate hd h0 h2 N
  · have h : s.prevN (N : Int) = prev_impl s (N : Int) := by
      unfold line_state_t.prevN
      rw [if_neg hnn]
    rw [h]
    exact prev_impl_eq_iterate hd h0 h2 N

/-- Witness for the amended claim C2 at a concrete state and step count. -/
theorem claim_C2_witness :
    (⟨⟨0, 0⟩, ⟨2, 1⟩, 2⟩ : line_state_t).nextN ((3 : Nat) : Int) =
        line_state_t.next^[3] ⟨⟨0, 0⟩, ⟨2, 1⟩, 2⟩ ∧
    (⟨⟨0, 0⟩, ⟨2, 1⟩, 2⟩ : line_state_t).prevN ((3 : Nat) : Int) =
        line_state_t.prev^[3] ⟨⟨0, 0⟩, ⟨2, 1⟩, 2⟩ :=
  claim_C2 ⟨⟨0, 0⟩, ⟨2, 1⟩, 2⟩ 3 (by decide) (by decide) (by decide) (by decide)

/-- Claim C5 as stated is false on the code: with `error = 5` and
`dir = (2,1)` (a valid direction) and `N = 0`, `next(s, -0) = next(s, 0)`
leaves `s` unchanged while `prev(s, 0)` moves it (truncating division on
an out-of-range error term). -/
theorem claim_C5_cex :
    ¬ (∀ (s : line_state_t) (N : Nat), s.dir ≠ (⟨0, 0⟩ : coord_t) →
        s.nextN (-(N : Int)) = s.prevN (N : Int) ∧
        s.prevN (-(N : Int)) = s.nextN (N : Int)) := by
  intro h
  have := (h ⟨⟨0, 0⟩, ⟨2, 1⟩, 5⟩ 0 (by decide)).1
  exact absurd this (by decide)

/-- Claim C5, amended: under the error-term invariant
`0 ≤ error ≤ 2 * max(|dir.x|, |dir.y|)`, negative-count stepping delegates
to the opposite direction: `next(s, -N) = prev(s, N)` and
`prev(s, -N) = next(s, N)` for all `N ≥ 0`. -/
theorem claim_C5 (s : line_state_t) (N : Nat) (hd : s.dir ≠ (⟨0, 0⟩ : coord_t))
    (h0 : 0 ≤ s.error) (h2 : s.error ≤ 2 * max |s.dir.x| |s.dir.y|) :
    s.nextN (-(N : Int)) = s.prevN (N : Int) ∧
    s.prevN (-(N : Int)) = s.nextN (N : Int) := by
  rw [← major_eq_max] at h2
  rcases Nat.eq_zero_or_pos N with h | h
  · subst h
    have hne : next_impl s ((0 : Nat) : Int) = s := by
      rw [next_impl_eq_iterate hd h0 h2 0]
      rfl
    have hpe : prev_impl s ((0 : Nat) : Int) = s := by
      rw [prev_impl_eq_iterate hd h0 h2 0]
      rfl
    have hz : (-((0 : Nat) : Int)) = ((0 : Nat) : Int) := by norm_num
    have h1 : ¬ (((0 : Nat) : Int) < 0) := by omega
    constructor
    · show s.nextN (-((0 : Nat) : Int)) = s.prevN ((0 : Nat) : Int)
      rw [hz]
      unfold line_state_t.nextN line_state_t.prevN
      rw [if_neg h1, if_neg h1, hne, hpe]
    · show s.prevN (-((0 : Nat) : Int)) = s.nextN ((0 : Nat) : Int)
      rw [hz]
      unfold line_state_t.nextN line_state_t.prevN
      rw [if_neg h1, if_neg h1, hne, hpe]
  · have hneg : (-(N : Int)) < 0 := by omega
    have hpos : ¬ ((N : Int) < 0) := by omega
    constructor
    · unfold line_state_t.nextN line_state_t.prevN
      rw [if_pos hneg, if_neg hpos, neg_neg]
    · unfold line_state_t.nextN line_state_t.prevN
      rw [if_pos hneg, if_neg hpos, neg_neg]

/-- Witness for the amended claim C5 at a concrete state and step count. -/
theorem claim_C5_witness :
    (⟨⟨0, 0⟩, ⟨2, 1⟩, 2⟩ : line_state_t).nextN (-((2 : Nat) : Int)) =
        (⟨⟨0, 0⟩, ⟨2, 1⟩, 2⟩ : line_state_t).prevN ((2 : Nat) : Int) ∧
    (⟨⟨0, 0⟩, ⟨2, 1⟩, 2⟩ : line_state_t).prevN (-((2 : Nat) : Int)) =
        (⟨⟨0, 0⟩, ⟨2, 1⟩, 2⟩ : line_state_t).nextN ((2 : Nat) : Int) :=
  claim_C5 ⟨⟨0, 0⟩, ⟨2, 1⟩, 2⟩ 2 (by decide) (by decide) (by decide)

/-- Claim C7: `hflipped` negates `dir.x` and leaves `pos`, `error` and
`dir.y` unchanged; `vflipped` negates `dir.y` and leaves `pos`, `error`
and `dir.x` unchanged. -/
theorem claim_C7 (s : line_state_t) :
    (s.hflipped.dir.x = -s.dir.x ∧ s.hflipped.dir.y = s.dir.y ∧
      s.hflipped.pos = s.pos ∧ s.hflipped.error = s.error) ∧
    (s.vflipped.dir.y = -s.dir.y ∧ s.vflipped.dir.x = s.dir.x ∧
      s.vflipped.pos = s.pos ∧ s.vflipped.error = s.error) := by
  unfold line_state_t.hflipped line_state_t.vflipped
  refine ⟨⟨?_, rfl, rfl, rfl⟩, ⟨?_, rfl, rfl, rfl⟩⟩ <;> dsimp only <;> ring

/-- Claim C8: every factory-built state satisfies
`0 ≤ error ≤ 2 * max(|dir.x|, |dir.y|)`, and the bound is preserved by
every single `next` and `prev` step. -/
theorem claim_C8 :
    (∀ pos dir : coord_t, 0 ≤ (line_state_t.pos_dir pos dir).error ∧
        (line_state_t.pos_dir pos dir).error ≤ 2 * max |dir.x| |dir.y|) ∧
    (∀ frm tgt : coord_t, 0 ≤ (line_state_t.from_to frm tgt).error ∧
        (line_state_t.from_to frm tgt).error ≤
          2 * max |(line_state_t.from_to frm tgt).dir.x|
            |(line_state_t.from_to frm tgt).dir.y|) ∧
    (∀ s : line_state_t, 0 ≤ s.error → s.error ≤ 2 * max |s.dir.x| |s.dir.y| →
        (0 ≤ s.next.error ∧
          s.next.error ≤ 2 * max |s.next.dir.x| |s.next.dir.y|) ∧
        (0 ≤ s.prev.error ∧
          s.prev.error ≤ 2 * max |s.prev.dir.x| |s.prev.dir.y|)) := by
  refine ⟨factory_bound, fun frm tgt => ?_, fun s h0 h2 => ?_⟩
  · unfold line_state_t.from_to
    split <;> exact factory_bound _ _
  · constructor
    · rw [next_dir]
      exact next_bound h0 h2
    · rw [prev_dir]
      exact prev_bound h0 h2

/-- Witness for claim C8: the preservation part applied at a concrete
state satisfying the bound. -/
theorem claim_C8_witness :
    (0 ≤ (⟨⟨0, 0⟩, ⟨2, 1⟩, 2⟩ : line_state_t).next.error ∧
      (⟨⟨0, 0⟩, ⟨2, 1⟩, 2⟩ : line_state_t).next.error ≤
        2 * max |(⟨⟨0, 0⟩, ⟨2, 1⟩, 2⟩ : line_state_t).next.dir.x|
          |(⟨⟨0, 0⟩, ⟨2, 1⟩, 2⟩ : line_state_t).next.dir.y|) ∧
    (0 ≤ (⟨⟨0, 0⟩, ⟨2, 1⟩, 2⟩ : line_state_t).prev.error ∧
      (⟨⟨0, 0⟩, ⟨2, 1⟩, 2⟩ : line_state_t).prev.error ≤
        2 * max |(⟨⟨0, 0⟩, ⟨2, 1⟩, 2⟩ : line_state_t).prev.dir.x|
          |(⟨⟨0, 0⟩, ⟨2, 1⟩, 2⟩ : line_state_t).prev.dir.y|) :=
  claim_C8.2.2 ⟨⟨0, 0⟩, ⟨2, 1⟩, 2⟩ (by decide) (by decide)

/-- Claim C9: for a valid in-bound state and `n ≥ 0`, the divisor
`d2[cx]` used in `next_impl`/`prev_impl` is nonzero and both computed
`y_change` values are non-negative (the asserts cannot fire). -/
theorem claim_C9 (s : line_state_t) (n : Int) (hd : s.dir ≠ (⟨0, 0⟩ : coord_t))
    (h0 : 0 ≤ s.error) (h2 : s.error ≤ 2 * max |s.dir.x| |s.dir.y|)
    (hn : 0 ≤ n) :
    (vec_mul (coord_abs s.dir) 2).get (cxOf s.dir) ≠ 0 ∧
    0 ≤ next_impl_y_change s n (cxOf s.dir) (cyOf s.dir) ∧
    0 ≤ prev_impl_y_change s n (cxOf s.dir) (cyOf s.dir) := by
  rw [← major_eq_max] at h2
  have ha := major_pos hd
  have hb : (0:Int) ≤ |s.dir.get (cyOf s.dir)| := abs_nonneg _
  have hprod : 0 ≤ |s.dir.get (cyOf s.dir)| * 2 * n :=
    mul_nonneg (mul_nonneg hb (by norm_num)) hn
  refine ⟨?_, ?_, ?_⟩
  · simp only [vec_mul_get, coord_abs_get]
    omega
  · unfold next_impl_y_change
    simp only [vec_mul_get, coord_abs_get]
    exact tdiv_nonneg_of_neg_one_le (by omega) (by linarith)
  · unfold prev_impl_y_change
    simp only [vec_mul_get, coord_abs_get]
    exact tdiv_nonneg_of_neg_one_le (by omega) (by linarith)

/-- Witness for claim C9 at a concrete state and count. -/
theorem claim_C9_witness :
    (vec_mul (coord_abs (⟨⟨0, 0⟩, ⟨2, 1⟩, 2⟩ : line_state_t).dir) 2).get
        (cxOf (⟨⟨0, 0⟩, ⟨2, 1⟩, 2⟩ : line_state_t).dir) ≠ 0 ∧
    0 ≤ next_impl_y_change ⟨⟨0, 0⟩, ⟨2, 1⟩, 2⟩ 7
        (cxOf (⟨⟨0, 0⟩, ⟨2, 1⟩, 2⟩ : line_state_t).dir)
        (cyOf (⟨⟨0, 0⟩, ⟨2, 1⟩, 2⟩ : line_state_t).dir) ∧
    0 ≤ prev_impl_y_change ⟨⟨0, 0⟩, ⟨2, 1⟩, 2⟩ 7
        (cxOf (⟨⟨0, 0⟩, ⟨2, 1⟩, 2⟩ : line_state_t).dir)
        (cyOf (⟨⟨0, 0⟩, ⟨2, 1⟩, 2⟩ : line_state_t).dir) :=
  claim_C9 ⟨⟨0, 0⟩, ⟨2, 1⟩, 2⟩ 7 (by decide) (by decide) (by decide) (by decide)

/-- Claim C10: stepping never changes the direction field: single-step
and multi-step `next`/`prev` all preserve `dir`. -/
theorem claim_C10 (s : line_state_t) (n : Int)
    (hd : s.dir ≠ (⟨0, 0⟩ : coord_t)) :
    s.next.dir = s.dir ∧ s.prev.dir = s.dir ∧
    (s.nextN n).dir = s.dir ∧ (s.prevN n).dir = s.dir :=
  ⟨next_dir s, prev_dir s, nextN_dir s n, prevN_dir s n⟩

/-- Witness for claim C10 at a concrete state and count. -/
theorem claim_C10_witness :
    (⟨⟨0, 0⟩, ⟨2, 1⟩, 2⟩ : line_state_t).next.dir =
        (⟨⟨0, 0⟩, ⟨2, 1⟩, 2⟩ : line_state_t).dir ∧
    (⟨⟨0, 0⟩, ⟨2, 1⟩, 2⟩ : line_state_t).prev.dir =
        (⟨⟨0, 0⟩, ⟨2, 1⟩, 2⟩ : line_state_t).dir ∧
    ((⟨⟨0, 0⟩, ⟨2, 1⟩, 2⟩ : line_state_t).nextN (-5)).dir =
        (⟨⟨0, 0⟩, ⟨2, 1⟩, 2⟩ : line_state_t).dir ∧
    ((⟨⟨0, 0⟩, ⟨2, 1⟩, 2⟩ : line_state_t).prevN (-5)).dir =
        (⟨⟨0, 0⟩, ⟨2, 1⟩, 2⟩ : line_state_t).dir :=
  claim_C10 ⟨⟨0, 0⟩, ⟨2, 1⟩, 2⟩ (-5) (by decide)

/-! ### Unfolding the two fuelled traversals into explicit lists -/

theorem state_run_eq (tgt : coord_t) (nsteps : Nat) :
    ∀ (fuel : Nat) (st : line_state_t),
      (∀ j, j < nsteps → (line_state_t.next^[j] st).pos ≠ tgt) →
      (line_state_t.next^[nsteps] st).pos = tgt →
      nsteps < fuel →
      state_run tgt fuel st =
        (List.range (nsteps + 1)).map
          (fun j => (line_state_t.next^[j] st).pos) := by
  induction nsteps with
  | zero =>
    intro fuel st hne hreach hfuel
    obtain ⟨fuel, rfl⟩ : ∃ f, fuel = f + 1 := ⟨fuel - 1, by omega⟩
    simp only [Function.iterate_zero, id_eq] at hreach
    show st.pos :: (if st.pos = tgt then [] else _) = _
    rw [if_pos hreach]
    simp [List.range_succ]
  | succ n ih =>
    intro fuel st hne hreach hfuel
    obtain ⟨fuel, rfl⟩ : ∃ f, fuel = f + 1 := ⟨fuel - 1, by omega⟩
    have h0 : st.pos ≠ tgt := by
      have := hne 0 (Nat.succ_pos n)
      simpa using this
    have hstep : ∀ j, line_state_t.next^[j] st.next = line_state_t.next^[j + 1] st :=
      fun j => (Function.iterate_succ_apply line_state_t.next j st).symm
    show st.pos :: (if st.pos = tgt then [] else state_run tgt fuel st.next) = _
    rw [if_neg h0]
    rw [ih fuel st.next (fun j hj => by rw [hstep j]; exact hne (j + 1) (by omega))
      (by rw [hstep n]; exact hreach) (by omega)]
    conv_rhs => rw [List.range_succ_eq_map]
    simp only [List.map_cons, List.map_map]
    congr 1

theorem range_go_eq (endPos : coord_t) (nsteps : Nat) :
    ∀ (fuel : Nat) (st : line_state_t),
      (∀ j, j < nsteps → (line_state_t.next^[j] st).pos ≠ endPos) →
      (line_state_t.next^[nsteps] st).pos = endPos →
      nsteps < fuel →
      range_go endPos fuel st =
        (List.range nsteps).map (fun j => (line_state_t.next^[j] st).pos) := by
  induction nsteps with
  | zero =>
    intro fuel st hne hreach hfuel
    obtain ⟨fuel, rfl⟩ : ∃ f, fuel = f + 1 := ⟨fuel - 1, by omega⟩
    simp only [Function.iterate_zero, id_eq] at hreach
    show (if st.pos = endPos then [] else _) = _
    rw [if_pos hreach]
    simp
  | succ n ih =>
    intro fuel st hne hreach hfuel
    obtain ⟨fuel, rfl⟩ : ∃ f, fuel = f + 1 := ⟨fuel - 1, by omega⟩
    have h0 : st.pos ≠ endPos := by
      have := hne 0 (Nat.succ_pos n)
      simpa using this
    have hstep : ∀ j, line_state_t.next^[j] st.next = line_state_t.next^[j + 1] st :=
      fun j => (Function.iterate_succ_apply line_state_t.next j st).symm
    show (if st.pos = endPos then [] else st.pos :: range_go endPos fuel st.next) = _
    rw [if_neg h0]
    rw [ih fuel st.next (fun j hj => by rw [hstep j]; exact hne (j + 1) (by omega))
      (by rw [hstep n]; exact hreach) (by omega)]
    conv_rhs => rw [List.range_succ_eq_map]
    simp only [List.map_cons, List.map_map]
    congr 1

@[simp] theorem get_ax0 (c : coord_t) : c.get .ax0 = c.x := rfl

@[simp] theorem get_ax1 (c : coord_t) : c.get .ax1 = c.y := rfl

theorem coord_sub_get (a b : coord_t) (i : Ax) :
    (coord_sub a b).get i = a.get i - b.get i := by
  cases i <;> rfl

/-! ### Simulation: `iterate_line` walks in lockstep with the state machine -/

theorem iterate_sim_flat {dir : coord_t} (tgt : coord_t) (hst : ¬ is_steep dir)
    (hd : dir ≠ (⟨0, 0⟩ : coord_t)) :
    ∀ (fuel : Nat) (st : line_state_t) (err : Int),
      st.dir = dir →
      st.error = 2 * err + 2 * |dir.y| - |dir.x| →
      0 ≤ st.error → st.error < 2 * |dir.x| → |dir.y| - |dir.x| < st.error →
      iterate_line_go (coord_abs dir) ⟨signum dir.x, signum dir.y⟩ tgt fuel
          st.pos err
        = state_run tgt fuel st := by
  have hcx : cxOf dir = Ax.ax0 := by unfold cxOf; rw [if_neg hst]
  have hcy : cyOf dir = Ax.ax1 := by unfold cyOf; rw [if_neg hst]
  have hqp : |dir.y| ≤ |dir.x| := by
    have := minor_le_major dir
    rwa [hcx, hcy, get_ax0, get_ax1] at this
  have hp1 : (1 : Int) ≤ |dir.x| := by
    have := major_pos hd
    rwa [hcx, get_ax0] at this
  have hq0 : (0 : Int) ≤ |dir.y| := abs_nonneg _
  intro fuel
  induction fuel with
  | zero => intro st err _ _ _ _ _; rfl
  | succ fuel ih =>
    intro st err hdir herr h0 h2 h3
    show st.pos :: (if st.pos = tgt then [] else _)
        = st.pos :: (if st.pos = tgt then [] else _)
    by_cases hstop : st.pos = tgt
    · rw [if_pos hstop, if_pos hstop]
    · rw [if_neg hstop, if_neg hstop]
      dsimp only [coord_abs]
      have hcondx : (2 * err > -|dir.y|) := by omega
      have hnd : st.next.dir = dir := by rw [next_dir, hdir]
      by_cases hbump : st.error - |dir.y| * 2 < 0
      · -- minor axis moves this step
        have hcondy : (2 * err < |dir.x|) := by omega
        have hnext : st.next =
            { pos := ⟨st.pos.x + signum dir.x, st.pos.y + signum dir.y⟩
              dir := dir
              error := st.error - |dir.y| * 2 + |dir.x| * 2 } := by
          rw [next_eq_body, hdir, hcx, hcy]
          simp only [nextBody, coord_abs, coord_abs_get, get_ax0, get_ax1, hdir]
          rw [if_pos hbump]
          refine line_state_t.ext3 ?_ rfl rfl
          simp [coord_t.set]
        simp only [if_pos hcondx, if_pos hcondy]
        have hrec := ih st.next (err - |dir.y| + |dir.x|)
          hnd (by rw [hnext]; dsimp only; omega)
          (by rw [hnext]; dsimp only; omega)
          (by rw [hnext]; dsimp only; omega)
          (by rw [hnext]; dsimp only; omega)
        rw [show (⟨st.pos.x + signum dir.x, st.pos.y + signum dir.y⟩ : coord_t)
            = st.next.pos by rw [hnext]]
        exact congrArg (st.pos :: ·) hrec
      · -- only the major axis moves
        have hcondy : ¬ (2 * err < |dir.x|) := by omega
        have hnext : st.next =
            { pos := ⟨st.pos.x + signum dir.x, st.pos.y⟩
              dir := dir
              error := st.error - |dir.y| * 2 } := by
          rw [next_eq_body, hdir, hcx, hcy]
          simp only [nextBody, coord_abs, coord_abs_get, get_ax0, get_ax1, hdir]
          rw [if_neg hbump]
          refine line_state_t.ext3 ?_ rfl rfl
          simp [coord_t.set]
        simp only [if_pos hcondx, if_neg hcondy]
        have hrec := ih st.next (err - |dir.y|)
          hnd (by rw [hnext]; dsimp only; omega)
          (by rw [hnext]; dsimp only; omega)
          (by rw [hnext]; dsimp only; omega)
          (by rw [hnext]; dsimp only; omega)
        rw [show (⟨st.pos.x + signum dir.x, st.pos.y⟩ : coord_t)
            = st.next.pos by rw [hnext]]
        exact congrArg (st.pos :: ·) hrec

theorem iterate_sim_steep {dir : coord_t} (tgt : coord_t) (hst : is_steep dir) :
    ∀ (fuel : Nat) (st : line_state_t) (err : Int),
      st.dir = dir →
      st.error = 2 * |dir.x| - |dir.y| - 2 * err →
      0 ≤ st.error → st.error < 2 * |dir.y| →
      iterate_line_go (coord_abs dir) ⟨signum dir.x, signum dir.y⟩ tgt fuel
          st.pos err
        = state_run tgt fuel st := by
  have hcx : cxOf dir = Ax.ax1 := by unfold cxOf; rw [if_pos hst]
  have hcy : cyOf dir = Ax.ax0 := by unfold cyOf; rw [if_pos hst]
  have hpq : |dir.x| < |dir.y| := is_steep_iff.mp hst
  have hp0 : (0 : Int) ≤ |dir.x| := abs_nonneg _
  intro fuel
  induction fuel with
  | zero => intro st err _ _ _ _; rfl
  | succ fuel ih =>
    intro st err hdir herr h0 h2
    show st.pos :: (if st.pos = tgt then [] else _)
        = st.pos :: (if st.pos = tgt then [] else _)
    by_cases hstop : st.pos = tgt
    · rw [if_pos hstop, if_pos hstop]
    · rw [if_neg hstop, if_neg hstop]
      dsimp only [coord_abs]
      have hcondy : (2 * err < |dir.x|) := by omega
      have hnd : st.next.dir = dir := by rw [next_dir, hdir]
      by_cases hbump : st.error - |dir.x| * 2 < 0
      · -- the minor (x) axis also moves this step
        have hcondx : (2 * err > -|dir.y|) := by omega
        have hnext : st.next =
            { pos := ⟨st.pos.x + signum dir.x, st.pos.y + signum dir.y⟩
              dir := dir
              error := st.error - |dir.x| * 2 + |dir.y| * 2 } := by
          rw [next_eq_body, hdir, hcx, hcy]
          simp only [nextBody, coord_abs, coord_abs_get, get_ax0, get_ax1, hdir]
          rw [if_pos hbump]
          refine line_state_t.ext3 ?_ rfl rfl
          simp [coord_t.set]
        simp only [if_pos hcondx, if_pos hcondy]
        have hrec := ih st.next (err - |dir.y| + |dir.x|)
          hnd (by rw [hnext]; dsimp only; omega)
          (by rw [hnext]; dsimp only; omega)
          (by rw [hnext]; dsimp only; omega)
        rw [show (⟨st.pos.x + signum dir.x, st.pos.y + signum dir.y⟩ : coord_t)
            = st.next.pos by rw [hnext]]
        exact congrArg (st.pos :: ·) hrec
      · -- only the major (y) axis moves
        have hcondx : ¬ (2 * err > -|dir.y|) := by omega
        have hnext : st.next =
            { pos := ⟨st.pos.x, st.pos.y + signum dir.y⟩
              dir := dir
              error := st.error - |dir.x| * 2 } := by
          rw [next_eq_body, hdir, hcx, hcy]
          simp only [nextBody, coord_abs, coord_abs_get, get_ax0, get_ax1, hdir]
          rw [if_neg hbump]
          refine line_state_t.ext3 ?_ rfl rfl
          simp [coord_t.set]
        simp only [if_neg hcondx, if_pos hcondy]
        have hrec := ih st.next (err + |dir.x|)
          hnd (by rw [hnext]; dsimp only; omega)
          (by rw [hnext]; dsimp only; omega)
          (by rw [hnext]; dsimp only; omega)
        rw [show (⟨st.pos.x, st.pos.y + signum dir.y⟩ : coord_t)
            = st.next.pos by rw [hnext]]
        exact congrArg (st.pos :: ·) hrec

/-! ### Geometry of the walk of a `from_to` state -/

theorem from_to_pos (frm tgt : coord_t) :
    (line_state_t.from_to frm tgt).pos = frm := by
  unfold line_state_t.from_to line_state_t.pos_dir
  split <;> rfl

theorem from_to_error (frm tgt : coord_t) :
    (line_state_t.from_to frm tgt).error =
      line_state_t.dir_err (line_state_t.from_to frm tgt).dir := by
  unfold line_state_t.from_to line_state_t.pos_dir
  split <;> rfl

theorem from_to_bound (frm tgt : coord_t) :
    0 ≤ (line_state_t.from_to frm tgt).error ∧
      (line_state_t.from_to frm tgt).error ≤
        2 * |(line_state_t.from_to frm tgt).dir.get
          (cxOf (line_state_t.from_to frm tgt).dir)| := by
  rw [from_to_error, dir_err_eq_major]
  have := abs_nonneg ((line_state_t.from_to frm tgt).dir.get
    (cxOf (line_state_t.from_to frm tgt).dir))
  omega

theorem from_to_dir_of_ne {frm tgt : coord_t} (h : frm ≠ tgt) :
    (line_state_t.from_to frm tgt).dir = coord_sub tgt frm := by
  unfold line_state_t.from_to
  rw [if_neg h]
  rfl

theorem c_dist_nonneg (a b : coord_t) : 0 ≤ c_dist a b :=
  le_max_of_le_left (abs_nonneg _)

theorem c_dist_axes {i j : Ax} (h : i ≠ j) (a b : coord_t) :
    c_dist a b = max |a.get i - b.get i| |a.get j - b.get j| := by
  cases i <;> cases j
  · exact absurd rfl h
  · rfl
  · exact max_comm _ _
  · exact absurd rfl h

theorem c_dist_eq_dir (frm tgt : coord_t) :
    c_dist frm tgt = max |(coord_sub tgt frm).x| |(coord_sub tgt frm).y| := by
  unfold c_dist coord_sub
  dsimp only
  rw [abs_sub_comm frm.x tgt.x, abs_sub_comm frm.y tgt.y]

theorem next_iterate_get_cx {s : line_state_t} (hd : s.dir ≠ (⟨0, 0⟩ : coord_t))
    (h0 : 0 ≤ s.error) (h2 : s.error ≤ 2 * |s.dir.get (cxOf s.dir)|) (j : Nat) :
    (line_state_t.next^[j] s).pos.get (cxOf s.dir)
      = s.pos.get (cxOf s.dir) + signum (s.dir.get (cxOf s.dir)) * j := by
  obtain ⟨m, e, hS, -, -, -, -, -, -⟩ := next_iterate_char hd h0 h2 j
  rw [hS]
  simp only [get_set_self, get_set_ne _ (cxOf_ne_cyOf s.dir)]

theorem major_signum_cases {s : line_state_t} (hd : s.dir ≠ (⟨0, 0⟩ : coord_t)) :
    signum (s.dir.get (cxOf s.dir)) = 1 ∨
      signum (s.dir.get (cxOf s.dir)) = -1 := by
  have h1 := major_pos hd
  have h2 : s.dir.get (cxOf s.dir) ≠ 0 := by
    intro hc
    rw [hc] at h1
    simp at h1
  have h3 := abs_signum_of_ne_zero h2
  rcases (abs_eq (by norm_num : (0:Int) ≤ 1)).mp h3 with h | h
  · exact Or.inl h
  · exact Or.inr h

theorem major_step_ne {s : line_state_t} (hd : s.dir ≠ (⟨0, 0⟩ : coord_t))
    (h0 : 0 ≤ s.error) (h2 : s.error ≤ 2 * |s.dir.get (cxOf s.dir)|)
    {j k : Nat} (hjk : j ≠ k) :
    (line_state_t.next^[j] s).pos ≠ (line_state_t.next^[k] s).pos := by
  intro hc
  have hg : (line_state_t.next^[j] s).pos.get (cxOf s.dir)
      = (line_state_t.next^[k] s).pos.get (cxOf s.dir) := by rw [hc]
  rw [next_iterate_get_cx hd h0 h2 j, next_iterate_get_cx hd h0 h2 k] at hg
  rcases major_signum_cases hd with h | h <;> rw [h] at hg <;> omega

theorem from_to_reach_state (frm tgt : coord_t) :
    (line_state_t.next^[(c_dist frm tgt).toNat]
        (line_state_t.from_to frm tgt)).pos = tgt ∧
    (line_state_t.next^[(c_dist frm tgt).toNat]
        (line_state_t.from_to frm tgt)).error =
      |(line_state_t.from_to frm tgt).dir.get
        (cxOf (line_state_t.from_to frm tgt).dir)| := by
  by_cases heq : frm = tgt
  · subst heq
    rw [show (c_dist frm frm).toNat = 0 by simp [c_dist]]
    refine ⟨from_to_pos frm frm, ?_⟩
    show (line_state_t.from_to frm frm).error = _
    rw [from_to_error, dir_err_eq_major]
  · have hd := from_to_dir_ne frm tgt
    obtain ⟨hb0, hb2⟩ := from_to_bound frm tgt
    have hdir : (line_state_t.from_to frm tgt).dir = coord_sub tgt frm :=
      from_to_dir_of_ne heq
    have hxy := cxOf_ne_cyOf (line_state_t.from_to frm tgt).dir
    have ha := major_pos hd
    have hb := minor_le_major (line_state_t.from_to frm tgt).dir
    have hbnn : (0:Int) ≤ |(line_state_t.from_to frm tgt).dir.get
        (cyOf (line_state_t.from_to frm tgt).dir)| := abs_nonneg _
    have hcast : (((c_dist frm tgt).toNat : Nat) : Int) = c_dist frm tgt :=
      Int.toNat_of_nonneg (c_dist_nonneg _ _)
    have hca : (((c_dist frm tgt).toNat : Nat) : Int)
        = |(line_state_t.from_to frm tgt).dir.get
            (cxOf (line_state_t.from_to frm tgt).dir)| := by
      rw [hcast, major_eq_max, hdir]
      exact c_dist_eq_dir frm tgt
    obtain ⟨m, e, hS, hee, he0, he2, -, hmlo, -⟩ :=
      next_iterate_char hd hb0 hb2 (c_dist frm tgt).toNat
    have herr0 : (line_state_t.from_to frm tgt).error
        = |(line_state_t.from_to frm tgt).dir.get
            (cxOf (line_state_t.from_to frm tgt).dir)| := by
      rw [from_to_error, dir_err_eq_major]
    rw [herr0, hca] at hee
    have hm : m = |(line_state_t.from_to frm tgt).dir.get
        (cyOf (line_state_t.from_to frm tgt).dir)| := by
      rcases lt_trichotomy m |(line_state_t.from_to frm tgt).dir.get
          (cyOf (line_state_t.from_to frm tgt).dir)| with hlt | hq | hgt
      · exfalso
        have h' : 2 * |(line_state_t.from_to frm tgt).dir.get
              (cxOf (line_state_t.from_to frm tgt).dir)| * (m + 1)
            ≤ 2 * |(line_state_t.from_to frm tgt).dir.get
              (cxOf (line_state_t.from_to frm tgt).dir)| *
              |(line_state_t.from_to frm tgt).dir.get
                (cyOf (line_state_t.from_to frm tgt).dir)| :=
          mul_le_mul_of_nonneg_left (by omega) (by omega)
        nlinarith [hee, he0]
      · exact hq
      · exfalso
        have h' : 2 * |(line_state_t.from_to frm tgt).dir.get
              (cxOf (line_state_t.from_to frm tgt).dir)| *
              (|(line_state_t.from_to frm tgt).dir.get
                (cyOf (line_state_t.from_to frm tgt).dir)| + 1)
            ≤ 2 * |(line_state_t.from_to frm tgt).dir.get
              (cxOf (line_state_t.from_to frm tgt).dir)| * m :=
          mul_le_mul_of_nonneg_left (by omega) (by omega)
        nlinarith [hee, he2]
    constructor
    · rw [hS]
      refine coord_ext_axes hxy ?_ ?_
      · simp only [get_set_self, get_set_ne _ hxy]
        rw [from_to_pos, hca, signum_mul_abs, hdir, coord_sub_get]
        ring
      · simp only [get_set_self, get_set_ne _ hxy.symm]
        rw [from_to_pos, hm, signum_mul_abs, hdir, coord_sub_get]
        ring
    · rw [hS]
      show e = _
      rw [hee, hm]
      ring

theorem line_range_end_eq (frm tgt : coord_t) :
    line_range_end frm tgt
      = line_state_t.next^[(c_dist frm tgt).toNat + 1]
          (line_state_t.from_to frm tgt) := by
  have hd := from_to_dir_ne frm tgt
  obtain ⟨hb0, hb2⟩ := from_to_bound frm tgt
  have hcast : (((c_dist frm tgt).toNat + 1 : Nat) : Int)
      = c_dist frm tgt + 1 := by
    push_cast
    rw [Int.toNat_of_nonneg (c_dist_nonneg frm tgt)]
  have hneg : ¬ (c_dist frm tgt + 1 < 0) := by
    have := c_dist_nonneg frm tgt
    omega
  unfold line_range_end line_range_begin line_state_t.nextN
  rw [if_neg hneg, ← hcast]
  exact next_impl_eq_iterate hd hb0 hb2 _

theorem line_range_list_eq (frm tgt : coord_t) :
    line_range_list frm tgt
      = (List.range ((c_dist frm tgt).toNat + 1)).map
          (fun j => (line_state_t.next^[j] (line_state_t.from_to frm tgt)).pos) := by
  have hd := from_to_dir_ne frm tgt
  obtain ⟨hb0, hb2⟩ := from_to_bound frm tgt
  unfold line_range_list line_range_begin
  rw [line_range_end_eq]
  exact range_go_eq _ ((c_dist frm tgt).toNat + 1) _ _
    (fun j hj => major_step_ne hd hb0 hb2 (by omega)) rfl (by omega)

theorem iterate_line_eq (frm tgt : coord_t) :
    iterate_line frm tgt
      = (List.range ((c_dist frm tgt).toNat + 1)).map
          (fun j => (line_state_t.next^[j] (line_state_t.from_to frm tgt)).pos) := by
  have hd := from_to_dir_ne frm tgt
  obtain ⟨hb0, hb2⟩ := from_to_bound frm tgt
  by_cases heq : frm = tgt
  · subst heq
    have hc0 : (c_dist frm frm).toNat = 0 := by simp [c_dist]
    rw [hc0]
    show iterate_line_go _ _ frm ((c_dist frm frm).toNat + 1) frm _ = _
    rw [hc0]
    show frm :: (if frm = frm then [] else _) = _
    rw [if_pos rfl]
    simp [List.range_succ, from_to_pos]
  · have hdir : (line_state_t.from_to frm tgt).dir = coord_sub tgt frm :=
      from_to_dir_of_ne heq
    have hdirne : coord_sub tgt frm ≠ (⟨0, 0⟩ : coord_t) := by
      rw [← hdir]
      exact hd
    have herr0 : (line_state_t.from_to frm tgt).error
        = line_state_t.dir_err (coord_sub tgt frm) := by
      rw [from_to_error, hdir]
    have hrun : iterate_line frm tgt
        = state_run tgt ((c_dist frm tgt).toNat + 1)
            (line_state_t.from_to frm tgt) := by
      by_cases hst : is_steep (coord_sub tgt frm)
      · have hq1 : (1:Int) ≤ |(coord_sub tgt frm).y| := by
          have := major_pos hdirne
          rwa [show cxOf (coord_sub tgt frm) = Ax.ax1 by
            unfold cxOf; rw [if_pos hst], get_ax1] at this
        have hpq : |(coord_sub tgt frm).x| < |(coord_sub tgt frm).y| :=
          is_steep_iff.mp hst
        have hp0 : (0:Int) ≤ |(coord_sub tgt frm).x| := abs_nonneg _
        have herrv : (line_state_t.from_to frm tgt).error
            = |(coord_sub tgt frm).y| := by
          rw [herr0]
          unfold line_state_t.dir_err
          rw [if_pos hst]
        have hsim := iterate_sim_steep tgt hst
          ((c_dist frm tgt).toNat + 1) (line_state_t.from_to frm tgt)
          ((coord_abs (coord_sub tgt frm)).x - (coord_abs (coord_sub tgt frm)).y)
          hdir
          (by dsimp only [coord_abs]; rw [herrv]; ring)
          (by rw [herrv]; omega)
          (by rw [herrv]; omega)
        rw [from_to_pos] at hsim
        exact hsim
      · have hp1 : (1:Int) ≤ |(coord_sub tgt frm).x| := by
          have := major_pos hdirne
          rwa [show cxOf (coord_sub tgt frm) = Ax.ax0 by
            unfold cxOf; rw [if_neg hst], get_ax0] at this
        have hqp : |(coord_sub tgt frm).y| ≤ |(coord_sub tgt frm).x| := by
          have := minor_le_major (coord_sub tgt frm)
          rwa [show cxOf (coord_sub tgt frm) = Ax.ax0 by
            unfold cxOf; rw [if_neg hst],
            show cyOf (coord_sub tgt frm) = Ax.ax1 by
            unfold cyOf; rw [if_neg hst], get_ax0, get_ax1] at this
        have hq0 : (0:Int) ≤ |(coord_sub tgt frm).y| := abs_nonneg _
        have herrv : (line_state_t.from_to frm tgt).error
            = |(coord_sub tgt frm).x| := by
          rw [herr0]
          unfold line_state_t.dir_err
          rw [if_neg hst]
        have hsim := iterate_sim_flat tgt hst hdirne
          ((c_dist frm tgt).toNat + 1) (line_state_t.from_to frm tgt)
          ((coord_abs (coord_sub tgt frm)).x - (coord_abs (coord_sub tgt frm)).y)
          hdir
          (by dsimp only [coord_abs]; rw [herrv]; ring)
          (by rw [herrv]; omega)
          (by rw [herrv]; omega)
          (by rw [herrv]; omega)
        rw [from_to_pos] at hsim
        exact hsim
    rw [hrun]
    exact state_run_eq tgt (c_dist frm tgt).toNat _ _
      (fun j hj => by
        have hne : j ≠ (c_dist frm tgt).toNat := by omega
        have h1 := major_step_ne hd hb0 hb2 hne
        rw [(from_to_reach_state frm tgt).1] at h1
        exact h1)
      (from_to_reach_state frm tgt).1 (by omega)

theorem line_range_size_eq (frm tgt : coord_t) :
    line_range_size frm tgt = c_dist frm tgt + 1 := by
  have hd := from_to_dir_ne frm tgt
  obtain ⟨hb0, hb2⟩ := from_to_bound frm tgt
  have hxy := cxOf_ne_cyOf (line_state_t.from_to frm tgt).dir
  obtain ⟨m, e, hS, hee, he0, he2, hm20, hmlo, hmhi⟩ :=
    next_iterate_char hd hb0 hb2 ((c_dist frm tgt).toNat + 1)
  unfold line_range_size line_range_begin
  rw [line_range_end_eq, hS, from_to_pos]
  dsimp only
  rw [c_dist_axes hxy]
  simp only [get_set_self, get_set_ne _ hxy, get_set_ne _ hxy.symm]
  rw [show frm.get (cxOf (line_state_t.from_to frm tgt).dir) +
        signum ((line_state_t.from_to frm tgt).dir.get
          (cxOf (line_state_t.from_to frm tgt).dir)) *
          (((c_dist frm tgt).toNat + 1 : Nat) : Int) -
        frm.get (cxOf (line_state_t.from_to frm tgt).dir)
      = signum ((line_state_t.from_to frm tgt).dir.get
          (cxOf (line_state_t.from_to frm tgt).dir)) *
          (((c_dist frm tgt).toNat + 1 : Nat) : Int) by ring]
  rw [show frm.get (cyOf (line_state_t.from_to frm tgt).dir) +
        signum ((line_state_t.from_to frm tgt).dir.get
          (cyOf (line_state_t.from_to frm tgt).dir)) * m -
        frm.get (cyOf (line_state_t.from_to frm tgt).dir)
      = signum ((line_state_t.from_to frm tgt).dir.get
          (cyOf (line_state_t.from_to frm tgt).dir)) * m by ring]
  have hcast : (((c_dist frm tgt).toNat + 1 : Nat) : Int)
      = c_dist frm tgt + 1 := by
    push_cast
    rw [Int.toNat_of_nonneg (c_dist_nonneg frm tgt)]
  have hxabs : |signum ((line_state_t.from_to frm tgt).dir.get
        (cxOf (line_state_t.from_to frm tgt).dir)) *
        (((c_dist frm tgt).toNat + 1 : Nat) : Int)|
      = (((c_dist frm tgt).toNat + 1 : Nat) : Int) := by
    rcases major_signum_cases hd with h | h <;> rw [h]
    · rw [one_mul, abs_of_nonneg (by positivity)]
    · rw [neg_one_mul, abs_neg, abs_of_nonneg (by positivity)]
  have hyabs : |signum ((line_state_t.from_to frm tgt).dir.get
        (cyOf (line_state_t.from_to frm tgt).dir)) * m|
      ≤ (((c_dist frm tgt).toNat + 1 : Nat) : Int) := by
    rw [abs_mul]
    have h1 := abs_signum_le_one ((line_state_t.from_to frm tgt).dir.get
      (cyOf (line_state_t.from_to frm tgt).dir))
    have h2 : |m| = m := abs_of_nonneg hmlo
    have h3 := mul_le_mul_of_nonneg_right h1 (abs_nonneg m)
    rw [one_mul] at h3
    omega
  rw [hxabs, max_eq_left hyabs]
  exact hcast

theorem line_range_last_eq (frm tgt : coord_t) :
    line_range_last frm tgt = tgt := by
  have hd := from_to_dir_ne frm tgt
  obtain ⟨hb0, hb2⟩ := from_to_bound frm tgt
  obtain ⟨m, e, hS, hee, he0, he2, -, -, -⟩ :=
    next_iterate_char hd hb0 hb2 ((c_dist frm tgt).toNat + 1)
  unfold line_range_last line_state_t.prevN
  rw [line_range_end_eq, if_neg (by norm_num : ¬ ((1:Int) < 0))]
  have hXd : (line_state_t.next^[(c_dist frm tgt).toNat + 1]
      (line_state_t.from_to frm tgt)).dir ≠ (⟨0, 0⟩ : coord_t) := by
    rw [next_iterate_dir]
    exact hd
  have hXb0 : 0 ≤ (line_state_t.next^[(c_dist frm tgt).toNat + 1]
      (line_state_t.from_to frm tgt)).error := by
    rw [hS]
    exact he0
  have hXb2 : (line_state_t.next^[(c_dist frm tgt).toNat + 1]
        (line_state_t.from_to frm tgt)).error
      ≤ 2 * |(line_state_t.next^[(c_dist frm tgt).toNat + 1]
          (line_state_t.from_to frm tgt)).dir.get
          (cxOf (line_state_t.next^[(c_dist frm tgt).toNat + 1]
            (line_state_t.from_to frm tgt)).dir)| := by
    rw [hS]
    exact he2
  have h1 := prev_impl_eq_iterate hXd hXb0 hXb2 1
  rw [show ((1:Nat):Int) = (1:Int) by norm_num] at h1
  rw [h1, Function.iterate_one, Function.iterate_succ_apply']
  have hc := from_to_reach_state frm tgt
  have hcb : 0 < (line_state_t.next^[(c_dist frm tgt).toNat]
      (line_state_t.from_to frm tgt)).error := by
    rw [hc.2]
    have := major_pos hd
    omega
  have hcb2 : (line_state_t.next^[(c_dist frm tgt).toNat]
        (line_state_t.from_to frm tgt)).error
      < 2 * |(line_state_t.next^[(c_dist frm tgt).toNat]
          (line_state_t.from_to frm tgt)).dir.get
          (cxOf (line_state_t.next^[(c_dist frm tgt).toNat]
            (line_state_t.from_to frm tgt)).dir)| := by
    rw [hc.2, next_iterate_dir]
    have := major_pos hd
    omega
  rw [prev_next_of_bound hcb hcb2]
  exact hc.1

/-- Claim C3: `iterate_line(from, to, collect)` visits exactly the same
ordered position sequence as traversing `line_range(from, to)` from
`begin()` to `end()`. -/
theorem claim_C3 (frm tgt : coord_t) :
    iterate_line frm tgt = line_range_list frm tgt :=
  (iterate_line_eq frm tgt).trans (line_range_list_eq frm tgt).symm

/-- Claim C4: a `line_range(from, to)` has `size() = c_dist(from, to) + 1`,
`first() = from` and `last() = to`; a degenerate range `line_range(p, p)`
has size 1 and visits only `p`. -/
theorem claim_C4 (frm tgt p : coord_t) :
    line_range_size frm tgt = c_dist frm tgt + 1 ∧
    line_range_first frm tgt = frm ∧
    line_range_last frm tgt = tgt ∧
    line_range_size p p = 1 ∧
    line_range_list p p = [p] := by
  refine ⟨line_range_size_eq frm tgt, from_to_pos frm tgt,
    line_range_last_eq frm tgt, ?_, ?_⟩
  · rw [line_range_size_eq p p]
    simp [c_dist]
  · rw [line_range_list_eq]
    simp [c_dist, List.range_succ, from_to_pos]

/-- Claim C6: along a `line_range(from, to)`, each iterator strictly
before `end - 1` compares strictly less than its successor under the
projection scalar `iter_cmp` of the iterators' relational operators. -/
theorem claim_C6 (frm tgt : coord_t) (j : Nat)
    (hj : (j : Int) < c_dist frm tgt) :
    0 < iter_cmp
        ((line_state_t.next^[j] (line_state_t.from_to frm tgt)).nextN 1)
        (line_state_t.next^[j] (line_state_t.from_to frm tgt)) ∧
    iter_cmp (line_state_t.next^[j] (line_state_t.from_to frm tgt))
        ((line_state_t.next^[j] (line_state_t.from_to frm tgt)).nextN 1)
      < 0 := by
  have hd := from_to_dir_ne frm tgt
  set X := line_state_t.next^[j] (line_state_t.from_to frm tgt) with hX
  have hdj : X.dir = (line_state_t.from_to frm tgt).dir :=
    next_iterate_dir _ _
  have hdne : X.dir ≠ (⟨0, 0⟩ : coord_t) := by
    rw [hdj]
    exact hd
  have hb : X.nextN 1 = next_implBody X 1 (cxOf X.dir) (cyOf X.dir) := by
    unfold line_state_t.nextN
    rw [if_neg (by norm_num : ¬ ((1:Int) < 0)), next_impl_eq_body]
  have hdir1 : (X.nextN 1).dir = X.dir := nextN_dir X 1
  have hposx : (X.nextN 1).pos.get (cxOf X.dir)
      = X.pos.get (cxOf X.dir) + 1 * signum (X.dir.get (cxOf X.dir)) := by
    rw [hb]
    simp only [next_implBody, vec_mul_get, coord_abs_get]
    simp only [get_set_self, get_set_ne _ (cxOf_ne_cyOf X.dir)]
  have hmaj := major_pos hdne
  constructor
  · rw [iter_cmp_eq, hdir1, hposx]
    rw [show X.pos.get (cxOf X.dir) + 1 * signum (X.dir.get (cxOf X.dir))
          - X.pos.get (cxOf X.dir) = signum (X.dir.get (cxOf X.dir)) by ring]
    rw [signum_mul_self]
    omega
  · rw [iter_cmp_eq, hposx]
    rw [show (X.pos.get (cxOf X.dir)
            - (X.pos.get (cxOf X.dir) + 1 * signum (X.dir.get (cxOf X.dir))))
          * X.dir.get (cxOf X.dir)
        = -(signum (X.dir.get (cxOf X.dir)) * X.dir.get (cxOf X.dir)) by ring]
    rw [signum_mul_self]
    omega

/-- Witness for claim C6 at a concrete range and iterator index. -/
theorem claim_C6_witness :
    0 < iter_cmp
        ((line_state_t.next^[2] (line_state_t.from_to ⟨0, 0⟩ ⟨5, 2⟩)).nextN 1)
        (line_state_t.next^[2] (line_state_t.from_to ⟨0, 0⟩ ⟨5, 2⟩)) ∧
    iter_cmp (line_state_t.next^[2] (line_state_t.from_to ⟨0, 0⟩ ⟨5, 2⟩))
        ((line_state_t.next^[2] (line_state_t.from_to ⟨0, 0⟩ ⟨5, 2⟩)).nextN 1)
      < 0 :=
  claim_C6 ⟨0, 0⟩ ⟨5, 2⟩ 2 (by decide)

end i2d
